import Mathlib

/-!
Verification of the paper-chase bibliography core: author parsing, title
sanitization, canonical filename generation with collision avoidance,
JSON-store CRUD, conflict detection, fuzzy similarity detection, and the
duplicate-suffix report.  The shared library `src/lib/utils.py` is not part
of the provided sources, so its functions are modelled from the
specification; the scripts `generate_references_md.py`,
`detect_duplicates.py` and `process_documents.py` are embedded from their
actual source.  Strings are modelled as Lean strings, manipulated through
their underlying character lists.
-/

namespace PaperChase

/-! ### Character and list-of-characters utilities -/

/-- ASCII whitespace test, matching what Python `str.split()` / `str.strip()`
treat as separators for the inputs this system handles. -/
def isWsChar (c : Char) : Bool :=
  c = ' ' || c = '\t' || c = '\n' || c = '\r'

/-- `startsWithL pat l` is true when `pat` is an initial segment of `l`. -/
def startsWithL : List Char → List Char → Bool
  | [], _ => true
  | _ :: _, [] => false
  | p :: ps, c :: cs => p = c && startsWithL ps cs

/-- `endsWithL pat l` is true when `pat` is a final segment of `l`. -/
def endsWithL (pat l : List Char) : Bool :=
  startsWithL pat.reverse l.reverse

/-- `containsL pat l`: does `pat` occur contiguously anywhere in `l`? -/
def containsL (pat : List Char) : List Char → Bool
  | [] => startsWithL pat []
  | c :: cs => startsWithL pat (c :: cs) || containsL pat cs

/-- Fuel-driven splitter: the fuel only has to dominate the length of the
list, which lets the recursion be structural (and so kernel-evaluable). -/
def splitOnAux (sep : List Char) : Nat → List Char → List (List Char)
  | _, [] => [[]]
  | 0, l => [l]
  | fuel + 1, c :: cs =>
    if startsWithL sep (c :: cs) && !sep.isEmpty then
      [] :: splitOnAux sep fuel (List.drop (sep.length - 1) cs)
    else
      match splitOnAux sep fuel cs with
      | [] => [[c]]
      | t :: ts => (c :: t) :: ts

/-- Split on every non-overlapping occurrence of a (nonempty) separator,
left to right, like Python `str.split(sep)`. -/
def splitOnL (sep l : List Char) : List (List Char) :=
  splitOnAux sep l.length l

/-- Python `str.strip()`: drop leading and trailing whitespace. -/
def pyStrip (l : List Char) : List Char :=
  ((l.dropWhile isWsChar).reverse.dropWhile isWsChar).reverse

/-- Python `str.rstrip(",")`: drop trailing comma characters. -/
def rstripComma (l : List Char) : List Char :=
  (l.reverse.dropWhile (fun c => c = ',')).reverse

/-- Lowercase every character (Python `str.lower()` on the ASCII data the
system handles). -/
def lowerL (l : List Char) : List Char :=
  l.map Char.toLower

/-- Whitespace tokenization (Python `str.split()` with no argument):
maximal runs of non-whitespace characters, empties never produced. -/
def wsTokensAux : List Char → List Char → List (List Char)
  | [], acc => if acc.isEmpty then [] else [acc.reverse]
  | c :: cs, acc =>
    if isWsChar c then
      if acc.isEmpty then wsTokensAux cs [] else acc.reverse :: wsTokensAux cs []
    else wsTokensAux cs (c :: acc)

/-- Whitespace tokens of a character list. -/
def wsTokens (l : List Char) : List (List Char) :=
  wsTokensAux l []

/-! ### AuthorParser, modelled from the spec (§4.1) -/

/-- Strip characters of the set `()` from both ends of a token, like Python
`token.strip("()")`. -/
def stripParens (t : List Char) : List Char :=
  let isParen : Char → Bool := fun c => c = '(' || c = ')'
  ((t.dropWhile isParen).reverse.dropWhile isParen).reverse

/-- Modelled from the spec: rule 4 of §4.1 of `parse_author` in the missing
`src/lib/utils.py` — the surname of one author name is its final
whitespace-delimited token with enclosing parentheses stripped, internal
apostrophes and hyphens preserved. -/
def surnameOf (name : List Char) : List Char :=
  match (wsTokens name).getLast? with
  | some t => stripParens t
  | none => name

/-- Modelled from the spec: rule 2 of §4.1 — detect a trailing "et al"
(case-insensitive, optional trailing period), strip it together with any
separating comma and whitespace, and report whether it was present. -/
def stripEtAl (l : List Char) : List Char × Bool :=
  let t := pyStrip l
  let low := lowerL t
  if endsWithL ((" et al.").data) low then
    (rstripComma (pyStrip (t.take (t.length - 7))), true)
  else if endsWithL ((" et al").data) low then
    (rstripComma (pyStrip (t.take (t.length - 6))), true)
  else (t, false)

/-- Modelled from the spec: rule 3 of §4.1 — split the author string into
individual names: split on the literal " and " when present (further
splitting any comma-separated group inside a part, so the Oxford-comma
pattern yields each author exactly once), else on commas. -/
def splitAuthors (core : List Char) : List (List Char) :=
  if containsL ((" and ").data) core then
    (splitOnL ((" and ").data) core).flatMap (fun part =>
      let p := rstripComma (pyStrip part)
      if containsL ([',']) p then
        ((splitOnL ([',']) p).map pyStrip).filter (fun n => !n.isEmpty)
      else [p])
  else if containsL ([',']) core then
    ((splitOnL ([',']) core).map pyStrip).filter (fun n => !n.isEmpty)
  else [pyStrip core]

/-- Modelled from the spec: the rule-8 dedup of §4.1 (and the dedup loop of
`fix_duplicate_authors.py`) — deduplicate by case-insensitive exact match of
the stripped lowercased name, preserving the first occurrence. -/
def dedupCIAux (seen : List (List Char)) : List (List Char) → List (List Char)
  | [] => []
  | n :: ns =>
    let key := lowerL (pyStrip n)
    if key ∈ seen then dedupCIAux seen ns
    else n :: dedupCIAux (key :: seen) ns

/-- Case-insensitive order-preserving deduplication. -/
def dedupCI (names : List (List Char)) : List (List Char) :=
  dedupCIAux [] names

/-- Modelled from the spec: `parse_author` of the missing
`src/lib/utils.py` (§4.1) — author string to `(filename_token,
author_names)`. -/
def parse_author (author : Option String) : String × List String :=
  match author with
  | none => (("Unknown"), [("Unknown")])
  | some s =>
    if s = ("") ∨ s = ("Unknown") then (("Unknown"), [("Unknown")])
    else
      let core := (stripEtAl s.data).1
      let etAl := (stripEtAl s.data).2
      match splitAuthors core with
      | [] => (("Unknown"), [("Unknown")])
      | [n] =>
        if etAl then (⟨surnameOf n ++ ("_et_al").data⟩, [⟨pyStrip s.data⟩])
        else (⟨surnameOf n⟩, [⟨pyStrip s.data⟩])
      | n1 :: n2 :: rest =>
        if rest.isEmpty ∧ etAl = false then
          (⟨surnameOf n1 ++ '_' :: surnameOf n2⟩,
            [⟨surnameOf n1⟩, ⟨surnameOf n2⟩])
        else
          (⟨surnameOf n1 ++ ("_et_al").data⟩,
            (dedupCI ((n1 :: n2 :: rest).map surnameOf)).map (fun l => ⟨l⟩))

/-! ### TitleSanitizer, modelled from the spec (§4.2) -/

/-- Modelled from the spec: the fixed preposition/article/conjunction
stopword set of the missing `src/lib/utils.py` (`PREPOSITIONS`), all
lowercase. -/
def PREPOSITIONS : List String :=
  [("a"), ("an"), ("the"), ("of"), ("in"), ("to"), ("for"), ("and"), ("or"), ("by")]

/-- Modelled from the spec: the fixed domain-adjective allow-list of the
missing `src/lib/utils.py` (`DOMAIN_ADJECTIVES`), all lowercase. -/
def DOMAIN_ADJECTIVES : List String :=
  [("deep"), ("machine"), ("neural"), ("statistical"), ("bayesian")]

/-- Characters kept when stripping a title token: the class `[A-Za-z0-9'-]`
(the apostrophe is code point 39). -/
def isAllowedChar (c : Char) : Bool :=
  c.isAlpha || c.isDigit || c.toNat = 39 || c = '-'

/-- Strip every character outside `[A-Za-z0-9'-]` from a token. -/
def stripToken (t : List Char) : List Char :=
  t.filter isAllowedChar

/-- Case-insensitive membership of a token in a lowercase word list. -/
def memCI (s : List Char) (ws : List String) : Bool :=
  ws.any (fun w => w.data = lowerL s)

/-- A stripped token is kept iff it is nonempty and either is a domain
adjective or is not a stopword. -/
def keepToken (s : List Char) : Bool :=
  !s.isEmpty && (memCI s DOMAIN_ADJECTIVES || !memCI s PREPOSITIONS)

/-- Join tokens with single underscores (Python `"_".join`). -/
def joinU : List (List Char) → List Char
  | [] => []
  | [t] => t
  | t :: ts => t ++ '_' :: joinU ts

/-- The stripped-and-filtered token sequence of a title. -/
def sanitizeTokens (l : List Char) : List (List Char) :=
  ((wsTokens l).map stripToken).filter keepToken

/-- Modelled from the spec: `sanitize_title` of the missing
`src/lib/utils.py` (§4.2) — tokenize on whitespace, strip characters outside
`[A-Za-z0-9'-]`, drop empty tokens and stopwords wherever they occur while
always keeping domain adjectives, and join the remaining tokens with single
underscores; `"Untitled"` for a null or empty title. -/
def sanitize_title (title : Option String) : String :=
  match title with
  | none => ("Untitled")
  | some s =>
    if s = ("") then ("Untitled")
    else ⟨joinU (sanitizeTokens s.data)⟩

/-! ### Decimal rendering of the collision counter -/

/-- The decimal digit character for `n % 10`. -/
def digitChar (n : Nat) : Char :=
  match n with
  | 0 => '0' | 1 => '1' | 2 => '2' | 3 => '3' | 4 => '4'
  | 5 => '5' | 6 => '6' | 7 => '7' | 8 => '8' | _ => '9'

/-- Fuel-driven decimal rendering; any fuel above the digit count works. -/
def natDigitsAux : Nat → Nat → List Char
  | 0, _ => []
  | fuel + 1, n =>
    if n < 10 then [digitChar n]
    else natDigitsAux fuel (n / 10) ++ [digitChar (n % 10)]

/-- Decimal representation of a natural number (Python `f"{n}"`). -/
def natDigits (n : Nat) : List Char :=
  natDigitsAux (n + 1) n

/-- Numeric value of a decimal digit character. -/
def digitVal (c : Char) : Nat := c.toNat - 48

/-- Numeric value of a digit string (Python `int(s)` on digit strings). -/
def undigits (l : List Char) : Nat :=
  l.foldl (fun a c => 10 * a + digitVal c) 0

/-! ### FilenameGenerator, modelled from the spec (§4.3) -/

/-- The candidate filename obtained by inserting the numeric suffix `n`
immediately before the `.pdf` extension of `stem ++ ".pdf"`. -/
def suffixName (stem : List Char) (n : Nat) : String :=
  ⟨stem ++ '_' :: natDigits n ++ (".pdf").data⟩

/-- Scan suffixes `n, n+1, ...` until a candidate clears both collision
sources; the fuel only has to dominate the number of taken names. -/
def findFree (processed dir : List String) (stem : List Char) : Nat → Nat → String
  | 0, n => suffixName stem n
  | fuel + 1, n =>
    if suffixName stem n ∈ processed ∨ suffixName stem n ∈ dir then
      findFree processed dir stem fuel (n + 1)
    else suffixName stem n

/-- Modelled from the spec: `check_duplicate_filename` of the missing
`src/lib/utils.py` (§4.3) — return the name unchanged when it collides with
neither `processed_files` nor the target directory (modelled as the list of
names it holds); otherwise insert numeric suffixes `_2`, `_3`, ... right
before the `.pdf` extension until a name free of both sources is found,
re-checking both sources at every step. -/
def check_duplicate_filename (filename : String) (processed dir : List String) : String :=
  if filename ∈ processed ∨ filename ∈ dir then
    let stem := filename.data.take (filename.data.length - 4)
    findFree processed dir stem (processed.length + dir.length + 1) 2
  else filename

/-- Truncate a sanitized title token to its first 10 underscore-delimited
words (Python `"_".join(t.split("_")[:10])`), as in
`update_broken_titles.py`. -/
def truncate10 (t : String) : String :=
  ⟨joinU ((splitOnL (['_']) t.data).take 10)⟩

/-- The composed base filename before collision resolution: author token and
title token joined, with the title token truncated to its first 10
underscore-delimited words when the composition exceeds 150 characters. -/
def composedBase (author title : Option String) : String :=
  let atok := (parse_author author).1
  let ttok := sanitize_title title
  let base := atok.data ++ '_' :: ttok.data ++ (".pdf").data
  if 150 < base.length then
    ⟨atok.data ++ '_' :: (truncate10 ttok).data ++ (".pdf").data⟩
  else ⟨base⟩

/-- Modelled from the spec: `generate_new_filename` of the missing
`src/lib/utils.py` (§4.3) — compose `"{author_token}_{title_token}.pdf"`,
truncate the title token to its first 10 underscore-delimited words when the
composition exceeds 150 characters, then resolve collisions against the
`processed_files` set and the target directory. -/
def generate_new_filename (author title : Option String) (processed dir : List String) :
    String × List String :=
  (check_duplicate_filename (composedBase author title) processed dir,
    (parse_author author).2)

/-! ### BibliographyStore records and CRUD, modelled from the spec (§3, §4.4) -/

/-- One bibliography record (§3): the store is a flat ordered sequence of
these, persisted as one JSON array. -/
structure Record where
  filename : String
  author : String
  title : Option String
  year : Option String
  publisher : Option String
  file_hash : Option String
  original_filename : Option String
deriving DecidableEq

/-- Modelled from the spec: the HarvardFormatter author-list join rule
(§4.7) used by the store operations — one name as-is, two joined with
" and ", three or more comma-separated with a final " and " and no Oxford
comma. -/
def harvardAuthors : List String → String
  | [] => ("")
  | [a] => a
  | [a, b] => a ++ (" and ") ++ b
  | a :: rest => a ++ (", ") ++ harvardAuthors rest

/-- Modelled from the spec: `add_entry_to_references_json` of the missing
`src/lib/utils.py` (§4.4 upsert) — replace in place, preserving position,
when a record with the same filename exists, else append. -/
def add_entry_to_references_json (author_names : List String)
    (year title publisher : Option String) (filename : String)
    (original_filename file_hash : Option String) (refs : List Record) :
    List Record :=
  let newRec : Record :=
    ⟨filename, harvardAuthors author_names, title, year, publisher,
      file_hash, original_filename⟩
  if refs.any (fun r => r.filename = filename) then
    refs.map (fun r => if r.filename = filename then newRec else r)
  else refs ++ [newRec]

/-- Modelled from the spec: `remove_entry_from_references_json` of the
missing `src/lib/utils.py` (§4.4) — remove the record with that exact
filename, returning whether a match was found. -/
def remove_entry_from_references_json (filename : String) (refs : List Record) :
    Bool × List Record :=
  (refs.any (fun r => r.filename = filename),
    refs.filter (fun r => ¬ r.filename = filename))

/-- Modelled from the spec: `update_entry_in_references_json` of the missing
`src/lib/utils.py` (§4.4) — locate the record keyed by `old_filename`,
return false when absent, else rewrite filename, author (joined by the
HarvardFormatter rule), year, title and publisher in place and return
true. -/
def update_entry_in_references_json (old_filename new_filename : String)
    (author_names : List String) (year title publisher : Option String) :
    List Record → Bool × List Record
  | [] => (false, [])
  | r :: rest =>
    if r.filename = old_filename then
      (true,
        ⟨new_filename, harvardAuthors author_names, title, year, publisher,
          r.file_hash, r.original_filename⟩ :: rest)
    else
      let p := update_entry_in_references_json old_filename new_filename
        author_names year title publisher rest
      (p.1, r :: p.2)

/-- The store invariant (§3): `filename` is unique across the store,
case-sensitive exact match defining uniqueness. -/
def UniqueFilenames (refs : List Record) : Prop :=
  List.Pairwise (fun a b => a.filename ≠ b.filename) refs

/-! ### ConflictDetector, modelled from the spec (§4.5) -/

/-- Modelled from the spec: `check_hash_conflict` of the missing
`src/lib/utils.py` (§4.5) — the first record whose `file_hash` exactly
equals the stub hash, provided the stub hash is non-empty; records without a
hash are never eligible. -/
def check_hash_conflict (file_hash : Option String) (refs : List Record) :
    Option Record :=
  match file_hash with
  | none => none
  | some h =>
    if h = ("") then none
    else refs.find? (fun r => r.file_hash = some h)

/-- Modelled from the spec: `check_filename_conflict` of the missing
`src/lib/utils.py` (§4.5) — the first record whose `filename` exactly
(case-sensitively) equals the candidate filename. -/
def check_filename_conflict (filename : String) (refs : List Record) :
    Option Record :=
  refs.find? (fun r => r.filename = filename)

/-- The two conflict descriptor tags of §4.5. -/
inductive ConflictType
  | hash_duplicate
  | filename_collision
deriving DecidableEq

/-- The conflict descriptors collected for one candidate stub by
`DocumentProcessor.process_file` (`process_documents.py`, lines 162-204):
a `hash_duplicate` entry when `check_hash_conflict` fires, then a
`filename_collision` entry when `check_filename_conflict` fires. -/
def conflictsFound (stub_hash : Option String) (stub_filename : String)
    (refs : List Record) : List ConflictType :=
  (match check_hash_conflict stub_hash refs with
    | some _ => [ConflictType.hash_duplicate]
    | none => []) ++
  (match check_filename_conflict stub_filename refs with
    | some _ => [ConflictType.filename_collision]
    | none => [])

/-! ### SimilarityDetector, modelled from the spec (§4.6) -/

/-- Modelled from the spec: `normalize_author_for_comparison` of the missing
`src/lib/utils.py` — lowercase and whitespace-trim; empty for a null
author. -/
def normalize_author_for_comparison (author : Option String) : String :=
  match author with
  | none => ("")
  | some s => ⟨lowerL (pyStrip s.data)⟩

/-- Fuel-driven longest-common-subsequence length; any fuel at or above the
sum of the lengths is enough. -/
def lcsFuel : Nat → List Char → List Char → Nat
  | 0, _, _ => 0
  | _ + 1, [], _ => 0
  | _ + 1, _ :: _, [] => 0
  | fuel + 1, a :: as, b :: bs =>
    if a = b then lcsFuel fuel as bs + 1
    else max (lcsFuel fuel (a :: as) bs) (lcsFuel fuel as (b :: bs))

/-- Longest-common-subsequence length of two character lists. -/
def lcs (x y : List Char) : Nat :=
  lcsFuel (x.length + y.length) x y

/-- Modelled from the spec: `title_similarity` of the missing
`src/lib/utils.py` (§4.6) — 0 when either title is null or empty, 1 for
case-insensitively identical titles, else the normalized
longest-common-subsequence ratio `2*lcs/(len1+len2)` over the lowercased
strings. -/
def title_similarity (t1 t2 : Option String) : ℚ :=
  match t1, t2 with
  | none, _ => 0
  | _, none => 0
  | some a, some b =>
    if a = ("") ∨ b = ("") then 0
    else
      let x := lowerL a.data
      let y := lowerL b.data
      if x = y then 1
      else 2 * (lcs x y : ℚ) / ((x.length : ℚ) + (y.length : ℚ))

/-- One reported fuzzy pair. -/
structure SimPair where
  file1 : Record
  file2 : Record
  author : String
  similarity : ℚ
deriving DecidableEq

/-- All unordered pairs of distinct records, in store order. -/
def candidatePairs : List Record → List (Record × Record)
  | [] => []
  | r :: rest => rest.map (fun s => (r, s)) ++ candidatePairs rest

/-- Modelled from the spec: `detect_similar_entries` of the missing
`src/lib/utils.py` (§4.6) — for every unordered pair of distinct records,
report the pair exactly when the normalized author strings match exactly and
the title similarity reaches the threshold. -/
def detect_similar_entries (entries : List Record) (threshold : ℚ) : List SimPair :=
  (candidatePairs entries).filterMap (fun p =>
    if normalize_author_for_comparison (some p.1.author) =
          normalize_author_for_comparison (some p.2.author) ∧
        threshold ≤ title_similarity p.1.title p.2.title then
      some ⟨p.1, p.2, normalize_author_for_comparison (some p.1.author),
        title_similarity p.1.title p.2.title⟩
    else none)

/-! ### parse_author_names, embedded from generate_references_md.py -/

/-- `parse_author_names` of `generate_references_md.py` (lines 34-53):
`["Unknown"]` for a null, empty or "Unknown" author; when the string
contains " and ", split on " and " and strip each part of surrounding
whitespace and then trailing commas; else when it contains ", ", split on
commas and strip each part; else the stripped string alone. -/
def parse_author_names (author_str : Option String) : List String :=
  match author_str with
  | none => [("Unknown")]
  | some s =>
    if s = ("") ∨ s = ("Unknown") then [("Unknown")]
    else if containsL ((" and ").data) s.data then
      (splitOnL ((" and ").data) s.data).map (fun part => ⟨rstripComma (pyStrip part)⟩)
    else if containsL ((", ").data) s.data then
      (splitOnL ([',']) s.data).map (fun a => ⟨pyStrip a⟩)
    else [⟨pyStrip s.data⟩]

/-! ### detect_filename_suffix_duplicates, embedded from detect_duplicates.py -/

/-- Split a character list at its last underscore: the part before it and
the part after it, or `none` when no underscore occurs. -/
def splitLastUnder (l : List Char) : Option (List Char × List Char) :=
  let r := l.reverse
  match r.dropWhile (fun c => ¬ c = '_') with
  | [] => none
  | _ :: before =>
    some (before.reverse, (r.takeWhile (fun c => ¬ c = '_')).reverse)

/-- The regex `(.+)_(\d+)\.pdf$` of `detect_filename_suffix_duplicates`:
a match succeeds exactly when the name ends in ".pdf" and the segment after
the last underscore of the stem is a nonempty digit run with a nonempty
base before it; the captures are that (greedy) base and the digit run. -/
def matchSuffixPat (filename : String) : Option (String × String) :=
  let cs := filename.data
  if endsWithL ((".pdf").data) cs then
    match splitLastUnder (cs.take (cs.length - 4)) with
    | some (b, d) =>
      if ¬ b = [] ∧ ¬ d = [] ∧ d.all Char.isDigit then some (⟨b⟩, ⟨d⟩)
      else none
    | none => none
  else none

/-- One row of the suffix-pattern report of
`detect_filename_suffix_duplicates` (`detect_duplicates.py`, lines 23-53). -/
structure SuffixItem where
  filename : String
  base_name : String
  suffix : String
  author : String
  title : String
  year : String
  publisher : String
  original_filename : String
deriving DecidableEq

/-- Code-point lexicographic order on character lists (Python string
comparison for the sort key). -/
def lexLe : List Char → List Char → Bool
  | [], _ => true
  | _ :: _, [] => false
  | a :: as, b :: bs =>
    if a.toNat < b.toNat then true
    else if b.toNat < a.toNat then false
    else lexLe as bs

/-- The sort key of `detect_filename_suffix_duplicates`:
`(base_name, int(suffix))` compared lexicographically. -/
def keyLe (x y : SuffixItem) : Bool :=
  if x.base_name = y.base_name then undigits x.suffix.data ≤ undigits y.suffix.data
  else lexLe x.base_name.data y.base_name.data

/-- `detect_filename_suffix_duplicates` of `detect_duplicates.py` (lines
23-53): collect every entry whose filename matches `(.+)_(\d+)\.pdf$` into a
report row, then sort by base name and numeric suffix. -/
def detect_filename_suffix_duplicates (entries : List Record) : List SuffixItem :=
  (entries.filterMap (fun e =>
    match matchSuffixPat e.filename with
    | some (b, d) =>
      some ⟨e.filename, b, d, e.author, e.title.getD (("")), e.year.getD (("")),
        e.publisher.getD (("")), e.original_filename.getD ((""))⟩
    | none => none)).mergeSort keyLe

/-- Does a character list contain two adjacent underscores? -/
def hasAdjU : List Char → Bool
  | c1 :: c2 :: rest => (c1 = '_' && c2 = '_') || hasAdjU (c2 :: rest)
  | _ => false

/-! ### Concrete behavioral checks (mirroring the unit tests) -/

example : parse_author (some ("Hastie, Tibshirani, and Friedman")) =
    (("Hastie_et_al"), [("Hastie"), ("Tibshirani"), ("Friedman")]) := by decide

example : parse_author (some ("John Smith")) = (("Smith"), [("John Smith")]) := by decide

example : parse_author (some ("Smith and Jones")) =
    (("Smith_Jones"), [("Smith"), ("Jones")]) := by decide

example : parse_author (some ("Kandel et al")) =
    (("Kandel_et_al"), [("Kandel et al")]) := by decide

example : parse_author (some ("Srivastava, Hinton, et al")) =
    (("Srivastava_et_al"), [("Srivastava"), ("Hinton")]) := by decide

example : parse_author (some ("Cristianini, Shawe-Taylor")) =
    (("Cristianini_Shawe-Taylor"), [("Cristianini"), ("Shawe-Taylor")]) := by decide

example : sanitize_title (some ("The Elements of Statistical Learning")) =
    ("Elements_Statistical_Learning") := by decide

example : sanitize_title (some ("Introduction to Machine Learning")) =
    ("Introduction_Machine_Learning") := by decide

example : sanitize_title (some ("Deep Learning")) = ("Deep_Learning") := by decide

example : sanitize_title (some ("Introduction   to   Python")) =
    ("Introduction_Python") := by decide

example : sanitize_title (some ("LaTeX: A Guide (2020)")) =
    ("LaTeX_Guide_2020") := by decide

example : sanitize_title (some ("Flask by Example")) = ("Flask_Example") := by decide

example : sanitize_title none = ("Untitled") := by decide

example : sanitize_title (some ("")) = ("Untitled") := by decide

example : sanitize_title (some ("Sentiment Classification for Chinese Microblog")) =
    ("Sentiment_Classification_Chinese_Microblog") := by decide

example : check_duplicate_filename (("Smith_Test.pdf")) [] [] = ("Smith_Test.pdf") := by decide

example : check_duplicate_filename (("Smith_Test.pdf")) [("Smith_Test.pdf")] [] =
    ("Smith_Test_2.pdf") := by decide

example : check_duplicate_filename (("Smith_Test.pdf"))
    [("Smith_Test.pdf"), ("Smith_Test_2.pdf"), ("Smith_Test_3.pdf")] [] =
    ("Smith_Test_4.pdf") := by decide

example : check_duplicate_filename (("Smith_Test.pdf")) [] [("Smith_Test.pdf")] =
    ("Smith_Test_2.pdf") := by decide

example : generate_new_filename (some ("John Smith")) (some ("Deep Learning")) [] [] =
    ((("Smith_Deep_Learning.pdf")), [("John Smith")]) := by decide

example : (generate_new_filename (some ("John Smith")) (some ("Deep Learning"))
    [("Smith_Deep_Learning.pdf")] []).1 = ("Smith_Deep_Learning_2.pdf") := by decide

example : (generate_new_filename (some ("Zhang, Jiang, Tong"))
    (some ("Sentiment Classification for Chinese Microblog")) [] []) =
    ((("Zhang_et_al_Sentiment_Classification_Chinese_Microblog.pdf")),
      [("Zhang"), ("Jiang"), ("Tong")]) := by decide

example : harvardAuthors [("Smith"), ("Jones"), ("Brown")] =
    ("Smith, Jones and Brown") := by decide

example : title_similarity (some ("Deep Learning")) (some ("Deep Learning")) = 1 := by decide

example : title_similarity (some ("DEEP LEARNING")) (some ("deep learning")) = 1 := by decide

example : title_similarity (some ("")) (some ("Something")) = 0 := by decide

example : title_similarity none (some ("Something")) = 0 := by decide

example : parse_author_names (some ("A, B and C")) = [("A, B"), ("C")] := by decide

example : parse_author_names (some ("Smith and Jones")) = [("Smith"), ("Jones")] := by decide

example : parse_author_names (some ("Hastie, Tibshirani, Friedman")) =
    [("Hastie"), ("Tibshirani"), ("Friedman")] := by decide

example : matchSuffixPat (("Smith_Test_2.pdf")) = some ((("Smith_Test")), (("2"))) := by decide

example : matchSuffixPat (("Smith_Learning_2020.pdf")) =
    some ((("Smith_Learning")), (("2020"))) := by decide

example : matchSuffixPat (("Smith_Test.pdf")) = none := by decide

example : matchSuffixPat (("_2.pdf")) = none := by decide

/-! ### Claim C1 -/

/-- Claim C1: for every author string that splits (after stripping any
trailing "et al") into three or more names, `parse_author` returns the
filename token formed from the FIRST author's surname followed by "_et_al"
and the list of all surnames in original order deduplicated by
case-insensitive exact match preserving the first occurrence; in particular
the Oxford-comma string "Hastie, Tibshirani, and Friedman" yields
("Hastie_et_al", ["Hastie", "Tibshirani", "Friedman"]) with no duplication
of the last author. -/
theorem c1_three_authors_et_al_collapse :
    (∀ (s : String) (n1 n2 n3 : List Char) (rest : List (List Char)),
      s ≠ ("") → s ≠ ("Unknown") →
      splitAuthors (stripEtAl s.data).1 = n1 :: n2 :: n3 :: rest →
      parse_author (some s) =
        (⟨surnameOf n1 ++ ("_et_al").data⟩,
          (dedupCI ((n1 :: n2 :: n3 :: rest).map surnameOf)).map (fun l => ⟨l⟩))) ∧
    parse_author (some ("Hastie, Tibshirani, and Friedman")) =
      (("Hastie_et_al"), [("Hastie"), ("Tibshirani"), ("Friedman")]) := by
  constructor
  · intro s n1 n2 n3 rest hne hnu hsplit
    simp only [parse_author]
    rw [if_neg (by simp [hne, hnu])]
    simp only [hsplit, List.isEmpty_cons]
    rw [if_neg (by simp)]
  · decide

/-- Witness for C1: a concrete three-author comma string run through the
general statement. -/
theorem c1_three_authors_et_al_collapse_witness :
    parse_author (some ("Smith, Jones, Brown")) =
      (⟨surnameOf (("Smith").data) ++ ("_et_al").data⟩,
        (dedupCI (((("Smith").data) :: (("Jones").data) :: (("Brown").data) :: []).map
          surnameOf)).map (fun l => ⟨l⟩)) :=
  c1_three_authors_et_al_collapse.1 (("Smith, Jones, Brown")) (("Smith").data)
    (("Jones").data) (("Brown").data) [] (by decide) (by decide) (by decide)

/-! ### Claim C4 -/

/-- A cons list has no adjacent underscores when its head is not an
underscore and its tail has none. -/
theorem hasAdjU_cons_of_ne {c : Char} (l : List Char) (hc : ¬ c = '_')
    (hl : hasAdjU l = false) : hasAdjU (c :: l) = false := by
  cases l with
  | nil => rfl
  | cons d rest =>
    simp only [hasAdjU] at hl ⊢
    simp [hc, hl]

/-- Prepending an underscore-free block preserves underscore-adjacency
freedom. -/
theorem hasAdjU_append (x l : List Char) (hx : ∀ c ∈ x, ¬ c = '_')
    (hl : hasAdjU l = false) : hasAdjU (x ++ l) = false := by
  induction x with
  | nil => simpa
  | cons c cs ih =>
    have hc : ¬ c = '_' := hx c (by simp)
    have hcs : hasAdjU (cs ++ l) = false := ih (fun d hd => hx d (by simp [hd]))
    simpa using hasAdjU_cons_of_ne _ hc hcs

/-- Joining nonempty underscore-free tokens with single underscores yields a
list with no adjacent underscores, whose first character is not an
underscore. -/
theorem hasAdjU_joinU (ts : List (List Char))
    (h : ∀ t ∈ ts, ¬ t = [] ∧ ∀ c ∈ t, ¬ c = '_') :
    hasAdjU (joinU ts) = false ∧ ∀ d, (joinU ts).head? = some d → ¬ d = '_' := by
  induction ts with
  | nil => exact ⟨rfl, by intro d hd; simp [joinU] at hd⟩
  | cons t ts ih =>
    obtain ⟨ht1, ht2⟩ := h t (by simp)
    obtain ⟨c, cs, rfl⟩ : ∃ c cs, t = c :: cs := by
      cases t with
      | nil => exact absurd rfl ht1
      | cons c cs => exact ⟨c, cs, rfl⟩
    cases ts with
    | nil =>
      refine ⟨by simpa using hasAdjU_append _ [] ht2 rfl, ?_⟩
      intro d hd
      simp only [joinU, List.head?_cons] at hd
      exact (Option.some_inj.mp hd) ▸ ht2 c (by simp)
    | cons t2 ts2 =>
      have ihh := ih (fun u hu => h u (by simp [hu]))
      refine ⟨?_, ?_⟩
      · show hasAdjU ((c :: cs) ++ '_' :: joinU (t2 :: ts2)) = false
        apply hasAdjU_append _ _ ht2
        cases hj : joinU (t2 :: ts2) with
        | nil => rfl
        | cons d rest =>
          have hd : ¬ d = '_' := ihh.2 d (by rw [hj]; rfl)
          have h1 : hasAdjU (d :: rest) = false := hj ▸ ihh.1
          simp only [hasAdjU]
          simp [hd, h1]
      · intro d hd
        simp only [joinU, List.cons_append, List.head?_cons] at hd
        exact (Option.some_inj.mp hd) ▸ ht2 c (by simp)

/-- Every token of `sanitizeTokens` is nonempty and underscore-free. -/
theorem sanitizeTokens_clean (l : List Char) :
    ∀ t ∈ sanitizeTokens l, ¬ t = [] ∧ ∀ c ∈ t, ¬ c = '_' := by
  intro t ht
  rw [sanitizeTokens, List.mem_filter] at ht
  obtain ⟨hmem, hkeep⟩ := ht
  constructor
  · intro hnil
    rw [keepToken, hnil] at hkeep
    simp at hkeep
  · intro c hc hunder
    obtain ⟨t0, _, rfl⟩ := List.mem_map.mp hmem
    rw [stripToken, List.mem_filter] at hc
    have : isAllowedChar '_' = true := hunder ▸ hc.2
    simp [isAllowedChar] at this

/-- Claim C4: `sanitize_title` drops each whitespace token that, after
stripping characters outside `[A-Za-z0-9'-]`, is empty or case-insensitively
matches the preposition/article/conjunction stopword set, wherever the token
occurs including the first position, except that a token case-insensitively
matching the domain-adjective allow-list is always kept; and the
underscore-joined output never contains two adjacent underscores, for any
input.  The stopword example "The Elements of Statistical Learning" keeps
"Statistical" and loses "The" and "of". -/
theorem c4_sanitize_title_stopwords_no_double_underscore :
    (∀ s : String, s ≠ ("") →
      sanitize_title (some s) =
        ⟨joinU (((wsTokens s.data).map stripToken).filter
          (fun t => !t.isEmpty &&
            (memCI t DOMAIN_ADJECTIVES || !memCI t PREPOSITIONS)))⟩) ∧
    (∀ t : Option String, hasAdjU (sanitize_title t).data = false) ∧
    sanitize_title (some ("The Elements of Statistical Learning")) =
      ("Elements_Statistical_Learning") := by
  refine ⟨?_, ?_, by decide⟩
  · intro s hs
    simp only [sanitize_title, if_neg hs]
    rfl
  · intro t
    match t with
    | none => decide
    | some s =>
      by_cases hs : s = ("")
      · rw [hs]; decide
      · simp only [sanitize_title, if_neg hs]
        exact (hasAdjU_joinU _ (sanitizeTokens_clean s.data)).1

/-- Witness for C4: the characterization applied to a concrete title. -/
theorem c4_sanitize_title_stopwords_no_double_underscore_witness :
    sanitize_title (some ("Flask by Example")) =
      ⟨joinU (((wsTokens (("Flask by Example")).data).map stripToken).filter
        (fun t => !t.isEmpty &&
          (memCI t DOMAIN_ADJECTIVES || !memCI t PREPOSITIONS)))⟩ :=
  c4_sanitize_title_stopwords_no_double_underscore.1 (("Flask by Example")) (by decide)

/-! ### Claim C2 -/

/-- A name colliding with neither source is returned unchanged. -/
theorem check_duplicate_filename_free (f : String) (p d : List String)
    (hp : f ∉ p) (hd : f ∉ d) : check_duplicate_filename f p d = f := by
  rw [check_duplicate_filename, if_neg (by simp [hp, hd])]

set_option maxRecDepth 40000 in
/-- Counterexample to claim C2: truncating the title token to its first 10
underscore-delimited words does not bound the character length, so a title
consisting of one 160-character word yields a 170-character filename. -/
theorem c2_filename_length_counterexample :
    150 <
      ((generate_new_filename (some (("John Smith")))
        (some (("aaaaaaaaaaaaaaaaaaaaaaaaaaaaaaaaaaaaaaaaaaaaaaaaaaaaaaaaaaaaaaaaaaaaaaaaaaaaaaaaaaaaaaaaaaaaaaaaaaaaaaaaaaaaaaaaaaaaaaaaaaaaaaaaaaaaaaaaaaaaaaaaaaaaaaaaaaaa")))
        [] []).1).length := by decide

/-- Claim C2 as amended: the generated filename is the collision-resolved
composed base, and its length stays at or below 150 characters whenever the
composed (possibly 10-word-truncated) base is at most 150 characters long
and collides with neither `processed_files` nor the target directory; the
truncation bounds the word count of the title token, not its character
length. -/
theorem c2_filename_length_amended :
    (∀ (author title : Option String) (processed dir : List String),
      generate_new_filename author title processed dir =
        (check_duplicate_filename (composedBase author title) processed dir,
          (parse_author author).2)) ∧
    (∀ (author title : Option String) (processed dir : List String),
      (composedBase author title).length ≤ 150 →
      composedBase author title ∉ processed →
      composedBase author title ∉ dir →
      ((generate_new_filename author title processed dir).1).length ≤ 150) := by
  refine ⟨fun _ _ _ _ => rfl, ?_⟩
  intro a t p d hlen hp hd
  show (check_duplicate_filename (composedBase a t) p d).length ≤ 150
  rw [check_duplicate_filename_free _ _ _ hp hd]
  exact hlen

/-- Witness for C2 (amended): a short author/title pair stays within the
150-character bound. -/
theorem c2_filename_length_amended_witness :
    ((generate_new_filename (some (("John Smith"))) (some (("Deep Learning")))
      [] []).1).length ≤ 150 :=
  c2_filename_length_amended.2 _ _ [] [] (by decide) (by decide) (by decide)

/-! ### Claim C5 -/

/-- Digit characters decode to their value. -/
theorem digitVal_digitChar : ∀ n < 10, digitVal (digitChar n) = n := by
  intro n h
  interval_cases n <;> decide

/-- Decimal rendering round-trips through decoding, given enough fuel. -/
theorem undigits_natDigitsAux (fuel : Nat) :
    ∀ n, n < fuel → undigits (natDigitsAux fuel n) = n := by
  induction fuel with
  | zero => intro n h; omega
  | succ fuel ih =>
    intro n h
    rw [natDigitsAux]
    by_cases h10 : n < 10
    · rw [if_pos h10]
      simp [undigits, digitVal_digitChar n h10]
    · rw [if_neg h10]
      have hdiv : n / 10 < fuel := by
        have := Nat.div_lt_self (by omega : 0 < n) (by omega : 1 < 10)
        omega
      have hrec := ih (n / 10) hdiv
      rw [undigits] at hrec ⊢
      rw [List.foldl_append, hrec]
      simp only [List.foldl]
      rw [digitVal_digitChar (n % 10) (Nat.mod_lt n (by omega))]
      omega

/-- `undigits` is a left inverse of `natDigits`. -/
theorem undigits_natDigits (n : Nat) : undigits (natDigits n) = n :=
  undigits_natDigitsAux (n + 1) n (by omega)

/-- Decimal rendering is injective. -/
theorem natDigits_inj : Function.Injective natDigits := by
  intro m n h
  have hm := undigits_natDigits m
  have hn := undigits_natDigits n
  rw [← hm, ← hn, h]

/-- For a fixed stem, distinct suffix numbers give distinct candidate
names. -/
theorem suffixName_inj (stem : List Char) : Function.Injective (suffixName stem) := by
  intro m n h
  apply natDigits_inj
  have hdata : (suffixName stem m).data = (suffixName stem n).data :=
    congrArg String.data h
  simp only [suffixName] at hdata
  have h1 := List.append_cancel_right hdata
  have h2 := List.append_cancel_left h1
  exact (List.cons.injEq _ _ _ _).mp h2 |>.2

/-- Pigeonhole: some suffix within the first `taken.length + 1` candidates
clears the whole taken list. -/
theorem exists_free_suffix (stem : List Char) (taken : List String) :
    ∃ k, k ≤ taken.length ∧ suffixName stem (2 + k) ∉ taken := by
  by_contra hcon
  push_neg at hcon
  have hinj : Function.Injective (fun k => suffixName stem (2 + k)) := by
    intro a b hab
    have := suffixName_inj stem hab
    omega
  have hsub : (Finset.range (taken.length + 1)).image (fun k => suffixName stem (2 + k)) ⊆
      taken.toFinset := by
    intro x hx
    simp only [Finset.mem_image, Finset.mem_range] at hx
    obtain ⟨k, hk, rfl⟩ := hx
    exact List.mem_toFinset.mpr (hcon k (by omega))
  have h1 := Finset.card_le_card hsub
  rw [Finset.card_image_of_injective _ hinj, Finset.card_range] at h1
  have h2 := taken.toFinset_card_le
  omega

/-- The suffix scan returns the first candidate clearing both sources,
provided one exists within the fuel. -/
theorem findFree_spec (processed dir : List String) (stem : List Char) :
    ∀ fuel n : Nat,
      (∃ k, k ≤ fuel ∧ suffixName stem (n + k) ∉ processed ∧
        suffixName stem (n + k) ∉ dir) →
      ∃ j, findFree processed dir stem fuel n = suffixName stem (n + j) ∧
        suffixName stem (n + j) ∉ processed ∧ suffixName stem (n + j) ∉ dir ∧
        ∀ i < j, suffixName stem (n + i) ∈ processed ∨ suffixName stem (n + i) ∈ dir := by
  intro fuel
  induction fuel with
  | zero =>
    intro n hex
    obtain ⟨k, hk, hfree⟩ := hex
    have hk0 : k = 0 := by omega
    subst hk0
    exact ⟨0, rfl, hfree.1, hfree.2, by omega⟩
  | succ fuel ih =>
    intro n hex
    obtain ⟨k, hk, hfree⟩ := hex
    rw [findFree]
    by_cases hc : suffixName stem n ∈ processed ∨ suffixName stem n ∈ dir
    · have hk0 : k ≠ 0 := by
        intro h0
        subst h0
        rcases hc with hc | hc
        · exact hfree.1 hc
        · exact hfree.2 hc
      have hshift : n + 1 + (k - 1) = n + k := by omega
      obtain ⟨j, hj, hf1, hf2, hmin⟩ :=
        ih (n + 1) ⟨k - 1, by omega, by rw [hshift]; exact hfree.1,
          by rw [hshift]; exact hfree.2⟩
      have hsj : n + 1 + j = n + (j + 1) := by omega
      rw [if_pos hc]
      refine ⟨j + 1, by rw [← hsj]; exact hj, by rw [← hsj]; exact hf1,
        by rw [← hsj]; exact hf2, ?_⟩
      intro i hi
      cases i with
      | zero => simpa using hc
      | succ i' =>
        have := hmin i' (by omega)
        have hsi : n + 1 + i' = n + (i' + 1) := by omega
        rw [← hsi]
        exact this
    · rw [if_neg hc]
      push_neg at hc
      exact ⟨0, rfl, hc.1, hc.2, by omega⟩

/-- The stem of a composed filename is recovered by dropping the last four
characters. -/
theorem take_stem (stem : List Char) :
    (stem ++ (".pdf").data).take ((stem ++ (".pdf").data).length - 4) = stem := by
  have hlen : (stem ++ (".pdf").data).length - 4 = stem.length := by
    simp [List.length_append]
  rw [hlen]
  exact List.take_left stem ((".pdf").data)

/-- On a colliding composed name the collision resolver runs the suffix scan
on the stem. -/
theorem check_duplicate_filename_collision (stem : List Char) (processed dir : List String)
    (hc : (⟨stem ++ (".pdf").data⟩ : String) ∈ processed ∨
      (⟨stem ++ (".pdf").data⟩ : String) ∈ dir) :
    check_duplicate_filename ⟨stem ++ (".pdf").data⟩ processed dir =
      findFree processed dir stem (processed.length + dir.length + 1) 2 := by
  rw [check_duplicate_filename, if_pos hc]
  show findFree processed dir
    ((stem ++ (".pdf").data).take ((stem ++ (".pdf").data).length - 4))
    (processed.length + dir.length + 1) 2 = _
  rw [take_stem]

/-- Claim C5: `check_duplicate_filename` returns the composed name unchanged
when it collides with neither `processed_files` nor the target directory,
and otherwise returns the candidate with the smallest numeric suffix
`_2, _3, ...` inserted immediately before the `.pdf` extension that is
absent from BOTH sources, every smaller suffix colliding with at least one
source; with the natural name and suffixes `_2`, `_3` already taken the
result carries suffix `_4`. -/
theorem c5_smallest_free_suffix :
    (∀ (f : String) (processed dir : List String),
      f ∉ processed → f ∉ dir → check_duplicate_filename f processed dir = f) ∧
    (∀ (stem : List Char) (processed dir : List String),
      (⟨stem ++ (".pdf").data⟩ : String) ∈ processed ∨
        (⟨stem ++ (".pdf").data⟩ : String) ∈ dir →
      ∃ j, 2 ≤ j ∧
        check_duplicate_filename ⟨stem ++ (".pdf").data⟩ processed dir =
          suffixName stem j ∧
        suffixName stem j ∉ processed ∧ suffixName stem j ∉ dir ∧
        ∀ i, 2 ≤ i → i < j →
          suffixName stem i ∈ processed ∨ suffixName stem i ∈ dir) ∧
    check_duplicate_filename (("Smith_Test.pdf"))
      [("Smith_Test.pdf"), ("Smith_Test_2.pdf"), ("Smith_Test_3.pdf")] [] =
      ("Smith_Test_4.pdf") := by
  refine ⟨check_duplicate_filename_free, ?_, by decide⟩
  intro stem processed dir hc
  rw [check_duplicate_filename_collision stem processed dir hc]
  obtain ⟨k, hk, hfree⟩ := exists_free_suffix stem (processed ++ dir)
  rw [List.mem_append] at hfree
  push_neg at hfree
  have hex : ∃ k, k ≤ processed.length + dir.length + 1 ∧
      suffixName stem (2 + k) ∉ processed ∧ suffixName stem (2 + k) ∉ dir := by
    refine ⟨k, ?_, hfree.1, hfree.2⟩
    rw [List.length_append] at hk
    omega
  obtain ⟨j, hj, hf1, hf2, hmin⟩ :=
    findFree_spec processed dir stem (processed.length + dir.length + 1) 2 hex
  refine ⟨2 + j, by omega, hj, hf1, hf2, ?_⟩
  intro i hi2 hij
  have := hmin (i - 2) (by omega)
  have hsi : 2 + (i - 2) = i := by omega
  rw [hsi] at this
  exact this

/-- Witness for C5: the no-collision clause applied to a concrete name. -/
theorem c5_smallest_free_suffix_witness :
    check_duplicate_filename (("Jones_Title.pdf")) [("Other.pdf")] [] =
      ("Jones_Title.pdf") :=
  c5_smallest_free_suffix.1 (("Jones_Title.pdf")) [("Other.pdf")] []
    (by decide) (by decide)

/-! ### Claim C3 -/

/-- Mapping a filename-preserving function across the store preserves the
uniqueness invariant. -/
theorem uniqueFilenames_map (refs : List Record) (f : Record → Record)
    (hf : ∀ r, (f r).filename = r.filename) (h : UniqueFilenames refs) :
    UniqueFilenames (refs.map f) := by
  rw [UniqueFilenames, List.pairwise_map]
  exact h.imp (by intro a b hab; rw [hf, hf]; exact hab)

/-- Every record of an updated store is either an original record or carries
the new filename. -/
theorem update_entry_mem (oldf newf : String) (names : List String)
    (year title publisher : Option String) :
    ∀ (refs : List Record) (b : Record),
      b ∈ (update_entry_in_references_json oldf newf names year title publisher refs).2 →
      b ∈ refs ∨ b.filename = newf := by
  intro refs
  induction refs with
  | nil => intro b hb; simp [update_entry_in_references_json] at hb
  | cons r rest ih =>
    intro b hb
    rw [update_entry_in_references_json] at hb
    by_cases hc : r.filename = oldf
    · rw [if_pos hc] at hb
      rcases List.mem_cons.mp hb with hb1 | hb2
      · right; rw [hb1]
      · left; exact List.mem_cons_of_mem _ hb2
    · rw [if_neg hc] at hb
      simp only [] at hb
      rcases List.mem_cons.mp hb with hb1 | hb2
      · left; rw [hb1]; exact List.mem_cons_self r rest
      · rcases ih b hb2 with h1 | h2
        · left; exact List.mem_cons_of_mem _ h1
        · right; exact h2

/-- Counterexample to claim C3: updating a record to a filename already held
by a different record breaks the uniqueness invariant. -/
theorem c3_unique_filenames_counterexample :
    UniqueFilenames
      [⟨("a.pdf"), ("A"), none, none, none, none, none⟩,
        ⟨("b.pdf"), ("B"), none, none, none, none, none⟩] ∧
    ¬ UniqueFilenames
      (update_entry_in_references_json (("a.pdf")) (("b.pdf")) [("A")] none none none
        [⟨("a.pdf"), ("A"), none, none, none, none, none⟩,
          ⟨("b.pdf"), ("B"), none, none, none, none, none⟩]).2 := by
  exact ⟨by simp only [UniqueFilenames]; decide,
    by simp only [UniqueFilenames]; decide⟩

/-- Claim C3 as amended: starting from a store with pairwise-distinct
filenames, upsert (`add_entry_to_references_json`) and remove
(`remove_entry_from_references_json`) always preserve the uniqueness
invariant, and update (`update_entry_in_references_json`) preserves it
provided the new filename equals the old one or occurs nowhere in the store;
an update whose new filename belongs to a different record breaks it. -/
theorem c3_unique_filenames_amended :
    (∀ (names : List String) (year title publisher : Option String) (fn : String)
      (ofn fh : Option String) (refs : List Record), UniqueFilenames refs →
      UniqueFilenames (add_entry_to_references_json names year title publisher fn ofn fh refs)) ∧
    (∀ (fn : String) (refs : List Record), UniqueFilenames refs →
      UniqueFilenames (remove_entry_from_references_json fn refs).2) ∧
    (∀ (oldf newf : String) (names : List String) (year title publisher : Option String)
      (refs : List Record), UniqueFilenames refs →
      (newf = oldf ∨ ∀ r ∈ refs, r.filename ≠ newf) →
      UniqueFilenames
        (update_entry_in_references_json oldf newf names year title publisher refs).2) := by
  refine ⟨?_, ?_, ?_⟩
  · intro names year title publisher fn ofn fh refs h
    simp only [add_entry_to_references_json]
    by_cases hex : refs.any (fun r => r.filename = fn)
    · rw [if_pos hex]
      apply uniqueFilenames_map refs _ _ h
      intro r
      by_cases hr : r.filename = fn
      · simp [hr]
      · simp [hr]
    · rw [if_neg hex]
      rw [UniqueFilenames, List.pairwise_append]
      refine ⟨h, List.pairwise_singleton _ _, ?_⟩
      intro a ha b hb
      have hb1 : b = (⟨fn, harvardAuthors names, title, year, publisher, fh, ofn⟩ : Record) := by
        simpa using hb
      subst hb1
      have hafn : ¬ a.filename = fn := by
        intro haf
        exact hex (List.any_eq_true.mpr ⟨a, ha, by simp [haf]⟩)
      exact hafn
  · intro fn refs h
    exact List.Pairwise.filter _ h
  · intro oldf newf names year title publisher refs h hnew
    induction refs with
    | nil => exact List.Pairwise.nil
    | cons r rest ih =>
      obtain ⟨hr, hrest⟩ := List.pairwise_cons.mp h
      rw [update_entry_in_references_json]
      by_cases hc : r.filename = oldf
      · rw [if_pos hc]
        apply List.pairwise_cons.mpr
        refine ⟨?_, hrest⟩
        intro b hb
        show newf ≠ b.filename
        rcases hnew with hno | hall
        · rw [hno, ← hc]
          exact hr b hb
        · exact fun h2 => hall b (List.mem_cons_of_mem _ hb) h2.symm
      · rw [if_neg hc]
        simp only []
        apply List.pairwise_cons.mpr
        constructor
        · intro b hb
          rcases update_entry_mem oldf newf names year title publisher rest b hb with hmem | hbf
          · exact hr b hmem
          · rw [hbf]
            rcases hnew with hno | hall
            · rw [hno]; exact hc
            · exact hall r (List.mem_cons_self r rest)
        · apply ih hrest
          rcases hnew with hno | hall
          · exact Or.inl hno
          · exact Or.inr (fun b hb => hall b (List.mem_cons_of_mem _ hb))

/-- Witness for C3 (amended): one upsert into a concrete one-record store
keeps filenames unique. -/
theorem c3_unique_filenames_amended_witness :
    UniqueFilenames (add_entry_to_references_json [("Smith")] none none none
      (("test.pdf")) none none
      [⟨("other.pdf"), ("O"), none, none, none, none, none⟩]) :=
  c3_unique_filenames_amended.1 [("Smith")] none none none (("test.pdf")) none none
    _ (List.pairwise_singleton _ _)

/-! ### Claim C8 -/

/-- Claim C8: for every store state and filename absent from the store,
update and remove return false — a boolean failure, not an exception — and
leave the stored sequence unchanged; when the old filename is present,
update rewrites the located record in place (filename, Harvard-joined
author, year, title, publisher; hash and original filename untouched) and
returns true. -/
theorem c8_missing_filename_boolean_failure :
    (∀ (oldf newf : String) (names : List String) (year title publisher : Option String)
      (refs : List Record), (∀ r ∈ refs, r.filename ≠ oldf) →
      update_entry_in_references_json oldf newf names year title publisher refs =
        (false, refs)) ∧
    (∀ (fn : String) (refs : List Record), (∀ r ∈ refs, r.filename ≠ fn) →
      remove_entry_from_references_json fn refs = (false, refs)) ∧
    (∀ (oldf newf : String) (names : List String) (year title publisher : Option String)
      (pre post : List Record) (rec : Record), rec.filename = oldf →
      (∀ r ∈ pre, r.filename ≠ oldf) →
      update_entry_in_references_json oldf newf names year title publisher
        (pre ++ rec :: post) =
        (true, pre ++ ⟨newf, harvardAuthors names, title, year, publisher,
          rec.file_hash, rec.original_filename⟩ :: post)) := by
  refine ⟨?_, ?_, ?_⟩
  · intro oldf newf names year title publisher refs habs
    induction refs with
    | nil => rfl
    | cons r rest ih =>
      rw [update_entry_in_references_json,
        if_neg (habs r (List.mem_cons_self r rest))]
      have hrest := ih (fun b hb => habs b (List.mem_cons_of_mem _ hb))
      rw [hrest]
  · intro fn refs habs
    rw [remove_entry_from_references_json]
    have h1 : refs.any (fun r => r.filename = fn) = false := by
      rw [List.any_eq_false]
      intro r hr
      simp [habs r hr]
    have h2 : refs.filter (fun r => ¬ r.filename = fn) = refs := by
      rw [List.filter_eq_self]
      intro r hr
      simp [habs r hr]
    rw [h1, h2]
  · intro oldf newf names year title publisher pre post rec hrec habs
    induction pre with
    | nil =>
      rw [List.nil_append, update_entry_in_references_json, if_pos hrec,
        List.nil_append]
    | cons p pre' ih =>
      rw [List.cons_append, update_entry_in_references_json,
        if_neg (habs p (List.mem_cons_self p pre'))]
      have hrest := ih (fun b hb => habs b (List.mem_cons_of_mem _ hb))
      rw [hrest]
      rfl

/-- Witness for C8: removing a filename missing from a concrete store fails
with `false` and leaves the store as it was. -/
theorem c8_missing_filename_boolean_failure_witness :
    remove_entry_from_references_json (("missing.pdf"))
      [⟨("present.pdf"), ("P"), none, none, none, none, none⟩] =
      (false, [⟨("present.pdf"), ("P"), none, none, none, none, none⟩]) :=
  c8_missing_filename_boolean_failure.2.1 (("missing.pdf"))
    [⟨("present.pdf"), ("P"), none, none, none, none, none⟩] (by decide)

/-! ### Claim C6 -/

/-- The hash check fires exactly on a non-empty stub hash equalling the
hash of some record that carries one. -/
theorem check_hash_conflict_isSome (h : Option String) (refs : List Record) :
    (check_hash_conflict h refs).isSome = true ↔
      ∃ s, h = some s ∧ s ≠ ("") ∧ ∃ r ∈ refs, r.file_hash = some s := by
  cases h with
  | none => simp [check_hash_conflict]
  | some s =>
    by_cases hs : s = ("")
    · simp [check_hash_conflict, hs]
    · simp [check_hash_conflict, hs, List.find?_isSome]

/-- The filename check fires exactly on an exact, case-sensitive filename
match. -/
theorem check_filename_conflict_isSome (fn : String) (refs : List Record) :
    (check_filename_conflict fn refs).isSome = true ↔ ∃ r ∈ refs, r.filename = fn := by
  rw [check_filename_conflict]
  simp [List.find?_isSome]

/-- A `hash_duplicate` descriptor appears exactly when the hash check
fires. -/
theorem mem_conflictsFound_hash (h : Option String) (fn : String) (refs : List Record) :
    ConflictType.hash_duplicate ∈ conflictsFound h fn refs ↔
      (check_hash_conflict h refs).isSome = true := by
  rw [conflictsFound]
  cases hh : check_hash_conflict h refs <;>
    cases hf : check_filename_conflict fn refs <;> simp

/-- A `filename_collision` descriptor appears exactly when the filename
check fires. -/
theorem mem_conflictsFound_filename (h : Option String) (fn : String) (refs : List Record) :
    ConflictType.filename_collision ∈ conflictsFound h fn refs ↔
      (check_filename_conflict fn refs).isSome = true := by
  rw [conflictsFound]
  cases hh : check_hash_conflict h refs <;>
    cases hf : check_filename_conflict fn refs <;> simp

/-- Claim C6: a `hash_duplicate` conflict is reported iff the stub hash is
non-empty (not None, not "") and exactly equals the `file_hash` of some
record carrying one, independently of filenames; a `filename_collision` is
reported iff the candidate filename exactly, case-sensitively, equals some
record's filename; and a stub with a unique hash but a colliding filename
yields only `filename_collision`. -/
theorem c6_conflict_descriptors :
    ∀ (h : Option String) (fn : String) (refs : List Record),
      (ConflictType.hash_duplicate ∈ conflictsFound h fn refs ↔
        ∃ s, h = some s ∧ s ≠ ("") ∧ ∃ r ∈ refs, r.file_hash = some s) ∧
      (ConflictType.filename_collision ∈ conflictsFound h fn refs ↔
        ∃ r ∈ refs, r.filename = fn) ∧
      ((∀ s, h = some s → ∀ r ∈ refs, r.file_hash ≠ some s) →
        (∃ r ∈ refs, r.filename = fn) →
        conflictsFound h fn refs = [ConflictType.filename_collision]) := by
  intro h fn refs
  refine ⟨?_, ?_, ?_⟩
  · rw [mem_conflictsFound_hash, check_hash_conflict_isSome]
  · rw [mem_conflictsFound_filename, check_filename_conflict_isSome]
  · intro hnone hex
    have h1 : check_hash_conflict h refs = none := by
      cases hh : check_hash_conflict h refs with
      | none => rfl
      | some r =>
        exfalso
        have hsome := (check_hash_conflict_isSome h refs).mp (by rw [hh]; rfl)
        obtain ⟨s, hs, hse, r', hr', hfh⟩ := hsome
        exact hnone s hs r' hr' hfh
    have h2 : (check_filename_conflict fn refs).isSome = true :=
      (check_filename_conflict_isSome fn refs).mpr hex
    rw [conflictsFound, h1]
    cases hf : check_filename_conflict fn refs with
    | none => rw [hf] at h2; simp at h2
    | some r => rfl

/-- Witness for C6: a stub with a unique hash but colliding filename on a
concrete one-record store yields only the filename collision. -/
theorem c6_conflict_descriptors_witness :
    conflictsFound (some ("cafe01")) (("a.pdf"))
      [⟨("a.pdf"), ("A"), none, none, none, some ("beef02"), none⟩] =
      [ConflictType.filename_collision] :=
  (c6_conflict_descriptors (some ("cafe01")) (("a.pdf"))
    [⟨("a.pdf"), ("A"), none, none, none, some ("beef02"), none⟩]).2.2
    (by decide) (by decide)

/-! ### Claim C7 -/

/-- The LCS length never exceeds either input length, whatever the fuel. -/
theorem lcsFuel_le (fuel : Nat) : ∀ x y : List Char,
    lcsFuel fuel x y ≤ x.length ∧ lcsFuel fuel x y ≤ y.length := by
  induction fuel with
  | zero => intro x y; simp [lcsFuel]
  | succ fuel ih =>
    intro x y
    match x, y with
    | [], y => simp [lcsFuel]
    | x :: xs, [] => simp [lcsFuel]
    | a :: as, b :: bs =>
      simp only [lcsFuel]
      by_cases hab : a = b
      · rw [if_pos hab]
        have h := ih as bs
        simp only [List.length_cons]
        omega
      · rw [if_neg hab]
        have h1 := ih (a :: as) bs
        have h2 := ih as (b :: bs)
        simp only [List.length_cons] at h1 h2 ⊢
        omega

/-- LCS bound for the actual `lcs` function. -/
theorem lcs_le (x y : List Char) : lcs x y ≤ x.length ∧ lcs x y ≤ y.length :=
  lcsFuel_le _ x y

/-- A list is a full common subsequence of itself extended by any suffix. -/
theorem lcsFuel_self_append (t : List Char) : ∀ (x : List Char) (fuel : Nat),
    x.length ≤ fuel → lcsFuel fuel x (x ++ t) = x.length := by
  intro x
  induction x with
  | nil =>
    intro fuel h
    cases fuel <;> simp [lcsFuel]
  | cons a as ih =>
    intro fuel h
    cases fuel with
    | zero => simp only [List.length_cons] at h; omega
    | succ fuel =>
      have hlen : as.length ≤ fuel := by
        simp only [List.length_cons] at h
        omega
      have ih2 : lcsFuel fuel as (as.append t) = as.length := ih fuel hlen
      simp only [List.cons_append, lcsFuel, eq_self_iff_true, if_true,
        List.length_cons]
      rw [ih2]

/-- Claim C7, title-similarity bounds: the score always lies in `[0, 1]`. -/
theorem title_similarity_bounds (t1 t2 : Option String) :
    0 ≤ title_similarity t1 t2 ∧ title_similarity t1 t2 ≤ 1 := by
  match t1, t2 with
  | none, t2 => simp [title_similarity]
  | some a, none => simp [title_similarity]
  | some a, some b =>
    rw [title_similarity]
    by_cases he : a = ("") ∨ b = ("")
    · rw [if_pos he]; norm_num
    · rw [if_neg he]
      by_cases hxy : lowerL a.data = lowerL b.data
      · rw [if_pos hxy]; norm_num
      · rw [if_neg hxy]
        push_neg at he
        have ha : a.data ≠ [] := fun hd => he.1 (String.ext hd)
        have hb : b.data ≠ [] := fun hd => he.2 (String.ext hd)
        have hxlen : 1 ≤ (lowerL a.data).length := by
          simp only [lowerL, List.length_map]
          exact List.length_pos.mpr ha
        have hylen : 1 ≤ (lowerL b.data).length := by
          simp only [lowerL, List.length_map]
          exact List.length_pos.mpr hb
        have hl := lcs_le (lowerL a.data) (lowerL b.data)
        have hpos : (0 : ℚ) <
            ((lowerL a.data).length : ℚ) + ((lowerL b.data).length : ℚ) := by
          have : 0 < (lowerL a.data).length + (lowerL b.data).length := by omega
          exact_mod_cast this
        constructor
        · apply div_nonneg _ (le_of_lt hpos)
          positivity
        · rw [div_le_one hpos]
          have hnat : 2 * lcs (lowerL a.data) (lowerL b.data) ≤
              (lowerL a.data).length + (lowerL b.data).length := by omega
          exact_mod_cast hnat

/-- Claim C7, identical titles: case-insensitively equal nonempty titles
score exactly 1. -/
theorem title_similarity_identical (a b : String) (ha : a ≠ (""))
    (hlow : lowerL a.data = lowerL b.data) :
    title_similarity (some a) (some b) = 1 := by
  have hb : b ≠ ("") := by
    intro hb0
    subst hb0
    have hdat : a.data = [] := by simpa [lowerL] using hlow
    exact ha (String.ext hdat)
  rw [title_similarity, if_neg (by simp [ha, hb]), if_pos hlow]

/-- Membership in the similarity report characterized: a pair is reported
exactly when it is a store pair whose normalized authors agree and whose
title similarity reaches the threshold. -/
theorem mem_detect_similar_entries (entries : List Record) (threshold : ℚ) (q : SimPair) :
    q ∈ detect_similar_entries entries threshold ↔
      (q.file1, q.file2) ∈ candidatePairs entries ∧
      normalize_author_for_comparison (some q.file1.author) =
        normalize_author_for_comparison (some q.file2.author) ∧
      threshold ≤ title_similarity q.file1.title q.file2.title ∧
      q.author = normalize_author_for_comparison (some q.file1.author) ∧
      q.similarity = title_similarity q.file1.title q.file2.title := by
  rw [detect_similar_entries, List.mem_filterMap]
  constructor
  · rintro ⟨p, hp, hq⟩
    by_cases hc : normalize_author_for_comparison (some p.1.author) =
        normalize_author_for_comparison (some p.2.author) ∧
        threshold ≤ title_similarity p.1.title p.2.title
    · rw [if_pos hc] at hq
      have hq2 := Option.some_inj.mp hq
      subst hq2
      exact ⟨hp, hc.1, hc.2, rfl, rfl⟩
    · rw [if_neg hc] at hq
      exact absurd hq (by simp)
  · rintro ⟨hp, hgate, hth, hauthor, hsim⟩
    refine ⟨(q.file1, q.file2), hp, ?_⟩
    rw [if_pos ⟨hgate, hth⟩]
    cases q with
    | mk f1 f2 au sim =>
      simp only at hauthor hsim
      rw [hauthor, hsim]

/-- Claim C7: with threshold 0.70, a pair is reported only if the normalized
author strings (case-insensitive, whitespace-trimmed) agree exactly — so
records with different authors are never reported regardless of title
similarity — and an author-matching pair is reported exactly when its title
similarity reaches the threshold; the title score always lies in `[0, 1]`,
case-insensitively identical titles score 1.0, a null or empty title on
either side scores 0.0, and a title differing only by a trailing
"2nd Edition" scores above 0.7. -/
theorem c7_similarity_detector :
    (∀ (entries : List Record) (q : SimPair), q ∈ detect_similar_entries entries (7/10) →
      normalize_author_for_comparison (some q.file1.author) =
        normalize_author_for_comparison (some q.file2.author) ∧
      (7/10 : ℚ) ≤ q.similarity ∧
      q.similarity = title_similarity q.file1.title q.file2.title) ∧
    (∀ (entries : List Record) (p : Record × Record), p ∈ candidatePairs entries →
      normalize_author_for_comparison (some p.1.author) =
        normalize_author_for_comparison (some p.2.author) →
      (7/10 : ℚ) ≤ title_similarity p.1.title p.2.title →
      ∃ q ∈ detect_similar_entries entries (7/10), q.file1 = p.1 ∧ q.file2 = p.2) ∧
    (∀ t1 t2, 0 ≤ title_similarity t1 t2 ∧ title_similarity t1 t2 ≤ 1) ∧
    (∀ a b : String, a ≠ ("") → lowerL a.data = lowerL b.data →
      title_similarity (some a) (some b) = 1) ∧
    (∀ t, title_similarity none t = 0 ∧ title_similarity t none = 0 ∧
      title_similarity (some ("")) t = 0 ∧ title_similarity t (some ("")) = 0) ∧
    (7/10 : ℚ) < title_similarity (some ("Introduction to Machine Learning"))
      (some ("Introduction to Machine Learning 2nd Edition")) := by
  refine ⟨?_, ?_, title_similarity_bounds, title_similarity_identical, ?_, ?_⟩
  · intro entries q hq
    have h := (mem_detect_similar_entries entries (7/10) q).mp hq
    exact ⟨h.2.1, h.2.2.2.2 ▸ h.2.2.1, h.2.2.2.2⟩
  · intro entries p hp hgate hth
    refine ⟨⟨p.1, p.2, normalize_author_for_comparison (some p.1.author),
      title_similarity p.1.title p.2.title⟩, ?_, rfl, rfl⟩
    exact (mem_detect_similar_entries entries (7/10) _).mpr
      ⟨hp, hgate, hth, rfl, rfl⟩
  · intro t
    match t with
    | none => exact ⟨rfl, rfl, rfl, rfl⟩
    | some s =>
      refine ⟨rfl, rfl, by rw [title_similarity, if_pos (Or.inl rfl)], ?_⟩
      rw [title_similarity, if_pos (Or.inr rfl)]
  · have hx : lowerL (("Introduction to Machine Learning").data) =
        ("introduction to machine learning").data := by decide
    have hy : lowerL (("Introduction to Machine Learning 2nd Edition").data) =
        ("introduction to machine learning").data ++ (" 2nd edition").data := by decide
    rw [title_similarity, if_neg (by decide)]
    simp only [hx, hy]
    rw [if_neg (by decide)]
    have hlcs : lcs (("introduction to machine learning").data)
        ((("introduction to machine learning").data) ++ ((" 2nd edition").data)) =
        (("introduction to machine learning").data).length := by
      rw [lcs]
      exact lcsFuel_self_append _ _ _ (Nat.le_add_right _ _)
    rw [hlcs]
    have h32 : (("introduction to machine learning").data).length = 32 := by decide
    have h44 : ((("introduction to machine learning").data) ++
        ((" 2nd edition").data)).length = 44 := by decide
    rw [h32, h44]
    norm_num

/-- Witness for C7: the identical-titles clause applied to a concrete
case-varying pair. -/
theorem c7_similarity_detector_witness :
    title_similarity (some ("Deep Learning")) (some ("DEEP learning")) = 1 :=
  c7_similarity_detector.2.2.2.1 (("Deep Learning")) (("DEEP learning"))
    (by decide) (by decide)

/-! ### Claim C9 -/

/-- Claim C9: for every stored author display string containing " and ",
`parse_author_names` of `generate_references_md.py` splits only on " and "
and strips trailing commas from each part, never splitting comma-separated
names inside a part; hence the three-author Harvard display string
"A, B and C" re-parses to the two-element list ["A, B", "C"], and the
Harvard author-list join followed by `parse_author_names` is not the
identity for three or more authors. -/
theorem c9_parse_author_names_and_split :
    (∀ s : String, containsL ((" and ").data) s.data = true →
      parse_author_names (some s) =
        (splitOnL ((" and ").data) s.data).map
          (fun part => ⟨rstripComma (pyStrip part)⟩)) ∧
    parse_author_names (some ("A, B and C")) = [("A, B"), ("C")] ∧
    harvardAuthors [("A"), ("B"), ("C")] = ("A, B and C") ∧
    parse_author_names (some (harvardAuthors [("A"), ("B"), ("C")])) ≠
      [("A"), ("B"), ("C")] := by
  refine ⟨?_, by decide, by decide, by decide⟩
  intro s hand
  have hne : ¬ (s = ("") ∨ s = ("Unknown")) := by
    rintro (rfl | rfl)
    · exact absurd hand (by decide)
    · exact absurd hand (by decide)
  rw [parse_author_names, if_neg hne, if_pos hand]

/-- Witness for C9: the " and "-splitting clause applied to a concrete
stored author string. -/
theorem c9_parse_author_names_and_split_witness :
    parse_author_names (some ("Smith and Jones")) =
      (splitOnL ((" and ").data) (("Smith and Jones")).data).map
        (fun part => ⟨rstripComma (pyStrip part)⟩) :=
  c9_parse_author_names_and_split.1 (("Smith and Jones")) (by decide)

/-! ### Claim C10 -/

/-- `startsWithL` holds exactly on initial segments. -/
theorem startsWithL_iff : ∀ p l : List Char, startsWithL p l = true ↔ ∃ t, l = p ++ t := by
  intro p
  induction p with
  | nil => intro l; simp [startsWithL]
  | cons a ps ih =>
    intro l
    cases l with
    | nil => simp [startsWithL]
    | cons c cs =>
      simp only [startsWithL, Bool.and_eq_true, decide_eq_true_eq]
      constructor
      · rintro ⟨rfl, h2⟩
        obtain ⟨t, rfl⟩ := (ih cs).mp h2
        exact ⟨t, rfl⟩
      · rintro ⟨t, ht⟩
        rw [List.cons_append] at ht
        injection ht with h1 h2
        exact ⟨h1.symm, (ih cs).mpr ⟨t, h2⟩⟩

/-- `endsWithL` holds exactly on final segments. -/
theorem endsWithL_iff (pat l : List Char) : endsWithL pat l = true ↔ ∃ t, l = t ++ pat := by
  rw [endsWithL, startsWithL_iff]
  constructor
  · rintro ⟨t, ht⟩
    refine ⟨t.reverse, ?_⟩
    have h2 := congrArg List.reverse ht
    simpa using h2
  · rintro ⟨t, rfl⟩
    exact ⟨t.reverse, by simp⟩

/-- `takeWhile`/`dropWhile` on a block of satisfying elements followed by a
failing element split exactly at that element. -/
theorem takeWhile_append_cons {p : Char → Bool} (xs : List Char) (c : Char)
    (ys : List Char) (hxs : ∀ x ∈ xs, p x = true) (hc : p c = false) :
    (xs ++ c :: ys).takeWhile p = xs ∧ (xs ++ c :: ys).dropWhile p = c :: ys := by
  induction xs with
  | nil =>
    constructor
    · simp [List.takeWhile_cons, hc]
    · simp [List.dropWhile_cons, hc]
  | cons x xs ih =>
    have hx : p x = true := hxs x (List.mem_cons_self x xs)
    obtain ⟨iht, ihd⟩ := ih (fun y hy => hxs y (List.mem_cons_of_mem _ hy))
    constructor
    · rw [List.cons_append, List.takeWhile_cons, hx]
      simp [iht]
    · rw [List.cons_append, List.dropWhile_cons, hx]
      simp [ihd]

/-- The head of a nonempty `dropWhile` result fails the predicate. -/
theorem dropWhile_head_false {p : Char → Bool} :
    ∀ (l : List Char) (c : Char) (rest : List Char),
      l.dropWhile p = c :: rest → p c = false := by
  intro l
  induction l with
  | nil => intro c rest h; simp [List.dropWhile] at h
  | cons x xs ih =>
    intro c rest h
    rw [List.dropWhile_cons] at h
    by_cases hx : p x = true
    · rw [if_pos hx] at h
      exact ih c rest h
    · rw [if_neg hx] at h
      injection h with h1 h2
      rw [← h1]
      exact Bool.not_eq_true _ ▸ (by simpa using hx)

/-- `splitLastUnder` on an explicit last-underscore decomposition. -/
theorem splitLastUnder_append (b d : List Char) (hd : ∀ c ∈ d, ¬ c = '_') :
    splitLastUnder (b ++ '_' :: d) = some (b, d) := by
  rw [splitLastUnder]
  have hrev : (b ++ '_' :: d).reverse = d.reverse ++ '_' :: b.reverse := by
    simp [List.reverse_append]
  have hall : ∀ x ∈ d.reverse, (fun c => decide (¬ c = '_')) x = true := by
    intro x hx
    simp only [decide_eq_true_eq]
    exact hd x (List.mem_reverse.mp hx)
  obtain ⟨ht, hdr⟩ := takeWhile_append_cons d.reverse '_' b.reverse hall (by decide)
  simp only [hrev, ht, hdr]
  simp

/-- `splitLastUnder` succeeds only on a last-underscore decomposition. -/
theorem splitLastUnder_eq_some (l b d : List Char)
    (h : splitLastUnder l = some (b, d)) :
    l = b ++ '_' :: d ∧ ∀ c ∈ d, ¬ c = '_' := by
  rw [splitLastUnder] at h
  cases hdw : l.reverse.dropWhile (fun c => decide (¬ c = '_')) with
  | nil => rw [hdw] at h; simp at h
  | cons c before =>
    rw [hdw] at h
    simp only [Option.some_inj, Prod.mk.injEq] at h
    obtain ⟨hb, hdd⟩ := h
    have hc : (fun c => decide (¬ c = '_')) c = false :=
      dropWhile_head_false l.reverse c before hdw
    have hcu : c = '_' := by simpa using hc
    have hsplit := List.takeWhile_append_dropWhile (fun c => decide (¬ c = '_')) l.reverse
    rw [hdw] at hsplit
    have hl : l = before.reverse ++ c :: (l.reverse.takeWhile (fun c => decide (¬ c = '_'))).reverse := by
      have h2 := congrArg List.reverse hsplit
      simpa using h2.symm
    constructor
    · rw [hl, hb, hdd, hcu]
    · intro x hx
      rw [← hdd] at hx
      have := List.mem_takeWhile_imp (List.mem_reverse.mp hx)
      simpa using this

/-- Claim C10, match characterization: the suffix regex matches exactly the
filenames decomposing as a nonempty base, an underscore, a nonempty digit
run, and ".pdf". -/
theorem matchSuffixPat_isSome_iff (f : String) :
    (matchSuffixPat f).isSome = true ↔
      ∃ b d, f.data = (b ++ '_' :: d) ++ (".pdf").data ∧ ¬ b = [] ∧ ¬ d = [] ∧
        d.all Char.isDigit = true := by
  rw [matchSuffixPat]
  by_cases hend : endsWithL ((".pdf").data) f.data = true
  · rw [if_pos hend]
    obtain ⟨stem, hstem⟩ := (endsWithL_iff _ _).mp hend
    have htake : f.data.take (f.data.length - 4) = stem := by
      rw [hstem]
      exact take_stem stem
    rw [htake]
    constructor
    · intro hsome
      cases hsp : splitLastUnder stem with
      | none => rw [hsp] at hsome; simp at hsome
      | some bd =>
        obtain ⟨b, d⟩ := bd
        rw [hsp] at hsome
        dsimp only [] at hsome
        by_cases hcond : ¬ b = [] ∧ ¬ d = [] ∧ d.all Char.isDigit = true
        · obtain ⟨hdec, -⟩ := splitLastUnder_eq_some stem b d hsp
          exact ⟨b, d, by rw [hstem, hdec], hcond.1, hcond.2.1, hcond.2.2⟩
        · rw [if_neg hcond] at hsome
          simp at hsome
    · rintro ⟨b, d, hdec, hb, hdn, hdig⟩
      have hstem2 : stem = b ++ '_' :: d := by
        have : (b ++ '_' :: d) ++ (".pdf").data = stem ++ (".pdf").data := by
          rw [← hdec, hstem]
        exact (List.append_cancel_right this).symm
      have hnound : ∀ c ∈ d, ¬ c = '_' := by
        intro c hc hcu
        have := List.all_eq_true.mp hdig c hc
        rw [hcu] at this
        simp at this
      rw [hstem2, splitLastUnder_append b d hnound]
      dsimp only []
      rw [if_pos ⟨hb, hdn, hdig⟩]
      rfl
  · rw [if_neg hend]
    simp only [Option.isSome_none, Bool.false_eq_true, false_iff]
    rintro ⟨b, d, hdec, -, -, -⟩
    apply hend
    rw [endsWithL_iff]
    exact ⟨b ++ '_' :: d, hdec⟩

/-- Characters with equal code points are equal. -/
theorem charToNat_inj {a b : Char} (h : a.toNat = b.toNat) : a = b := by
  have h2 := congrArg Char.ofNat h
  simpa [Char.ofNat_toNat] using h2

/-- Code-point lexicographic order is total. -/
theorem lexLe_total : ∀ x y : List Char, lexLe x y = true ∨ lexLe y x = true := by
  intro x
  induction x with
  | nil => intro y; left; rfl
  | cons a as ih =>
    intro y
    cases y with
    | nil => right; rfl
    | cons b bs =>
      by_cases h1 : a.toNat < b.toNat
      · left; simp [lexLe, h1]
      · by_cases h2 : b.toNat < a.toNat
        · right; simp [lexLe, h2]
        · rcases ih bs with h | h
          · left; simp [lexLe, h1, h2, h]
          · right; simp [lexLe, h1, h2, h]

/-- Code-point lexicographic order is transitive. -/
theorem lexLe_trans : ∀ x y z : List Char,
    lexLe x y = true → lexLe y z = true → lexLe x z = true := by
  intro x
  induction x with
  | nil => intro y z h1 h2; rfl
  | cons a as ih =>
    intro y z h1 h2
    cases y with
    | nil => simp [lexLe] at h1
    | cons b bs =>
      cases z with
      | nil => simp [lexLe] at h2
      | cons c cs =>
        rw [lexLe] at h1 h2 ⊢
        by_cases hab : a.toNat < b.toNat
        · by_cases hbc : b.toNat < c.toNat
          · rw [if_pos (show a.toNat < c.toNat by omega)]
          · by_cases hcb : c.toNat < b.toNat
            · rw [if_neg hbc, if_pos hcb] at h2
              exact absurd h2 (by simp)
            · rw [if_pos (show a.toNat < c.toNat by omega)]
        · by_cases hba : b.toNat < a.toNat
          · rw [if_neg hab, if_pos hba] at h1
            exact absurd h1 (by simp)
          · rw [if_neg hab, if_neg hba] at h1
            by_cases hbc : b.toNat < c.toNat
            · rw [if_pos (show a.toNat < c.toNat by omega)]
            · by_cases hcb : c.toNat < b.toNat
              · rw [if_neg hbc, if_pos hcb] at h2
                exact absurd h2 (by simp)
              · rw [if_neg hbc, if_neg hcb] at h2
                rw [if_neg (show ¬ a.toNat < c.toNat by omega),
                  if_neg (show ¬ c.toNat < a.toNat by omega)]
                exact ih bs cs h1 h2

/-- Code-point lexicographic order is antisymmetric. -/
theorem lexLe_antisymm : ∀ x y : List Char,
    lexLe x y = true → lexLe y x = true → x = y := by
  intro x
  induction x with
  | nil =>
    intro y h1 h2
    cases y with
    | nil => rfl
    | cons b bs => simp [lexLe] at h2
  | cons a as ih =>
    intro y h1 h2
    cases y with
    | nil => simp [lexLe] at h1
    | cons b bs =>
      by_cases hab : a.toNat < b.toNat
      · rw [lexLe, if_neg (by omega), if_pos hab] at h2
        exact absurd h2 (by simp)
      · by_cases hba : b.toNat < a.toNat
        · rw [lexLe, if_neg (by omega), if_pos hba] at h1
          exact absurd h1 (by simp)
        · have hchar : a = b := charToNat_inj (by omega)
          subst hchar
          rw [lexLe, if_neg hab, if_neg hab] at h1
          rw [lexLe, if_neg hab, if_neg hab] at h2
          rw [ih bs h1 h2]

/-- The report sort key is transitive. -/
theorem keyLe_trans : ∀ x y z : SuffixItem,
    keyLe x y = true → keyLe y z = true → keyLe x z = true := by
  intro x y z h1 h2
  rw [keyLe] at h1 h2 ⊢
  by_cases hxy : x.base_name = y.base_name
  · by_cases hyz : y.base_name = z.base_name
    · rw [if_pos hxy] at h1
      rw [if_pos hyz] at h2
      rw [if_pos (hxy.trans hyz)]
      simp only [decide_eq_true_eq] at h1 h2 ⊢
      omega
    · rw [if_pos hxy] at h1
      rw [if_neg hyz] at h2
      rw [if_neg (by rw [hxy]; exact hyz), hxy]
      exact h2
  · by_cases hyz : y.base_name = z.base_name
    · rw [if_neg hxy] at h1
      rw [if_pos hyz] at h2
      rw [if_neg (by rw [← hyz]; exact hxy), ← hyz]
      exact h1
    · rw [if_neg hxy] at h1
      rw [if_neg hyz] at h2
      by_cases hxz : x.base_name = z.base_name
      · exfalso
        have h3 : lexLe y.base_name.data x.base_name.data = true := by
          rw [hxz]; exact h2
        have h4 := lexLe_antisymm _ _ h1 h3
        exact hxy (String.ext h4)
      · rw [if_neg hxz]
        exact lexLe_trans _ _ _ h1 h2

/-- The report sort key is total. -/
theorem keyLe_total : ∀ x y : SuffixItem, (keyLe x y || keyLe y x) = true := by
  intro x y
  rw [keyLe, keyLe]
  by_cases hxy : x.base_name = y.base_name
  · rw [if_pos hxy, if_pos hxy.symm]
    rw [Bool.or_eq_true]
    simp only [decide_eq_true_eq]
    omega
  · rw [if_neg hxy, if_neg (fun h => hxy h.symm)]
    rw [Bool.or_eq_true]
    exact lexLe_total x.base_name.data y.base_name.data

/-- Claim C10: `detect_filename_suffix_duplicates` reports a record exactly
when its filename matches the regex `(.+)_(\d+)\.pdf$` — equivalently, when
the filename splits as a nonempty base, an underscore, a nonempty all-digit
segment and ".pdf", which includes filenames ending in a four-digit year —
and the reported list is sorted by base name and then by the numeric value
of the suffix. -/
theorem c10_suffix_pattern_report :
    (∀ f : String, (matchSuffixPat f).isSome = true ↔
      ∃ b d, f.data = (b ++ '_' :: d) ++ (".pdf").data ∧ ¬ b = [] ∧ ¬ d = [] ∧
        d.all Char.isDigit = true) ∧
    (∀ (entries : List Record) (item : SuffixItem),
      item ∈ detect_filename_suffix_duplicates entries ↔
        ∃ e ∈ entries, ∃ bs ds : String,
          matchSuffixPat e.filename = some (bs, ds) ∧
          item = ⟨e.filename, bs, ds, e.author, e.title.getD (("")),
            e.year.getD (("")), e.publisher.getD (("")),
            e.original_filename.getD ((""))⟩) ∧
    (∀ entries : List Record,
      List.Pairwise (fun a b => keyLe a b = true)
        (detect_filename_suffix_duplicates entries)) ∧
    matchSuffixPat (("Smith_Learning_2020.pdf")) =
      some ((("Smith_Learning")), (("2020"))) := by
  refine ⟨matchSuffixPat_isSome_iff, ?_, ?_, by decide⟩
  · intro entries item
    rw [detect_filename_suffix_duplicates, List.mem_mergeSort, List.mem_filterMap]
    constructor
    · rintro ⟨e, he, hsome⟩
      cases hm : matchSuffixPat e.filename with
      | none => rw [hm] at hsome; simp at hsome
      | some bd =>
        obtain ⟨bs, ds⟩ := bd
        rw [hm] at hsome
        dsimp only [] at hsome
        exact ⟨e, he, bs, ds, hm, (Option.some_inj.mp hsome).symm⟩
    · rintro ⟨e, he, bs, ds, hm, rfl⟩
      exact ⟨e, he, by rw [hm]⟩
  · intro entries
    exact List.sorted_mergeSort keyLe_trans
      (fun a b => keyLe_total a b) _

/-- Witness for C10: the match characterization instantiated on a concrete
suffixed filename. -/
theorem c10_suffix_pattern_report_witness :
    ∃ b d, (("Smith_Test_2.pdf")).data = (b ++ '_' :: d) ++ (".pdf").data ∧
      ¬ b = [] ∧ ¬ d = [] ∧ d.all Char.isDigit = true :=
  (c10_suffix_pattern_report.1 (("Smith_Test_2.pdf"))).mp (by decide)

end PaperChase
